import Mathlib

/-!
Shallow embedding of the Bayesian-optimization driver loop behind the GPyOpt
demonstration notebooks of this repository.  The notebooks only construct
configuration dictionaries and call into the external GPyOpt library
(`BayesianOptimization`, `run_optimization`, `suggest_next_locations`), so the
engine itself is not present in the repository; following the accompanying
design specification, the driver loop, the incumbent tracking, the
de-duplication and pending/ignored handling, the acquisition functions and the
local-penalization batch selector are modelled here from the specification's
words.  All numeric values are exact rationals.
-/

namespace GPyOptSpec

/-- Modelled from the spec: one variable specification of a `Domain` — either
continuous (lower, upper bound pair), discrete (explicit finite value set) or
categorical (finite unordered value set).  The implementing code lives in the
external GPyOpt library, not in this repository. -/
inductive VarSpec where
  | continuous (low high : ℚ)
  | discrete (values : List ℚ)
  | categorical (values : List ℚ)
deriving DecidableEq

/-- Modelled from the spec: a `Domain` is an ordered list of variable
specifications; its length is the search-space dimensionality D. -/
def Domain := List VarSpec

/-- Modelled from the spec: one observation, an (x, y) pair with x a D-vector
and y a scalar. -/
structure Obs where
  x : List ℚ
  y : ℚ
deriving DecidableEq

/-- Modelled from the spec: squared Euclidean distance between two vectors,
used for tolerance-based membership and the last-two-points distance. -/
def sqDist (a b : List ℚ) : ℚ :=
  (List.zipWith (fun u v => (u - v) * (u - v)) a b).foldl (fun s t => s + t) 0

/-- Modelled from the spec: tolerance-based membership — whether `x` is within
Euclidean distance `tol` of some element of `S` (squared comparison). -/
def nearAny (tol : ℚ) (x : List ℚ) (S : List (List ℚ)) : Bool :=
  S.any (fun s => decide (sqDist x s ≤ tol * tol))

/-- Modelled from the spec: the running fold that finds the observation of
minimal y value, seeded with a first observation. -/
def bestObs (o : Obs) (os : List Obs) : Obs :=
  os.foldl (fun b c => if c.y < b.y then c else b) o

/-- Modelled from the spec: the `Incumbent` — the (x*, y*) pair of the
observation set with minimal y value; `none` on an empty set. -/
def incumbent : List Obs → Option Obs
  | [] => none
  | o :: os => some (bestObs o os)

theorem bestObs_mem : ∀ (os : List Obs) (o : Obs), bestObs o os ∈ o :: os := by
  intro os
  induction os with
  | nil => intro o; simp [bestObs]
  | cons d os ih =>
    intro o
    have hstep : bestObs o (d :: os) = bestObs (if d.y < o.y then d else o) os := rfl
    by_cases hd : d.y < o.y
    · rw [hstep, if_pos hd]
      exact List.mem_cons_of_mem _ (ih d)
    · rw [hstep, if_neg hd]
      rcases List.mem_cons.mp (ih o) with h1 | h1
      · simp [h1]
      · exact List.mem_cons_of_mem _ (List.mem_cons_of_mem _ h1)

theorem bestObs_le : ∀ (os : List Obs) (o c : Obs),
    c ∈ o :: os → (bestObs o os).y ≤ c.y := by
  intro os
  induction os with
  | nil =>
    intro o c hc
    simp at hc
    simp [bestObs, hc]
  | cons d os ih =>
    intro o c hc
    have hstep : bestObs o (d :: os) = bestObs (if d.y < o.y then d else o) os := rfl
    by_cases hd : d.y < o.y
    · rw [hstep, if_pos hd]
      have h1 : (bestObs d os).y ≤ d.y := ih d d (List.mem_cons_self _ _)
      rcases List.mem_cons.mp hc with h2 | h2
      · subst h2; exact le_trans h1 (le_of_lt hd)
      · rcases List.mem_cons.mp h2 with h3 | h3
        · subst h3; exact h1
        · exact ih d c (List.mem_cons_of_mem _ h3)
    · rw [hstep, if_neg hd]
      have h1 : (bestObs o os).y ≤ o.y := ih o o (List.mem_cons_self _ _)
      rcases List.mem_cons.mp hc with h2 | h2
      · subst h2; exact h1
      · rcases List.mem_cons.mp h2 with h3 | h3
        · subst h3; exact le_trans h1 (le_of_not_lt hd)
        · exact ih o c (List.mem_cons_of_mem _ h3)

theorem incumbent_mem_and_min (o : Obs) (os : List Obs) :
    ∃ inc : Obs, incumbent (o :: os) = some inc ∧ inc ∈ o :: os ∧
      ∀ c ∈ o :: os, inc.y ≤ c.y := by
  refine ⟨bestObs o os, rfl, bestObs_mem os o, fun c hc => bestObs_le os o c hc⟩

/-- Modelled from the spec: the state owned by the `OptimizationLoop` — the
append-only observation history, the derived incumbent, the iteration counter
and the last two accepted points for the convergence distance check. -/
structure LoopState where
  obs : List Obs
  inc : Option Obs
  iterations_done : Nat
  last_x : Option (List ℚ)
  prev_x : Option (List ℚ)
deriving DecidableEq

/-- Modelled from the spec: appending one accepted observation to the history;
the incumbent is recomputed from the new history on every append, and the
last-two-points tracking shifts. -/
def pushPoint (s : LoopState) (o : Obs) : LoopState :=
  { obs := s.obs ++ [o]
    inc := incumbent (s.obs ++ [o])
    iterations_done := s.iterations_done
    last_x := some o.x
    prev_x := s.last_x }

/-- Modelled from the spec: appending a whole batch of evaluated points to the
observation history, one accepted point at a time. -/
def appendObservations (s : LoopState) (new : List Obs) : LoopState :=
  new.foldl pushPoint s

theorem pushPoint_inc (s : LoopState) (o : Obs) :
    (pushPoint s o).inc = incumbent (pushPoint s o).obs := rfl

theorem appendObservations_inc : ∀ (new : List Obs) (s : LoopState), new ≠ [] →
    (appendObservations s new).inc = incumbent (appendObservations s new).obs := by
  intro new
  induction new with
  | nil => intro s h; exact absurd rfl h
  | cons o rest ih =>
    intro s _
    cases rest with
    | nil => exact pushPoint_inc s o
    | cons o2 r2 => exact ih (pushPoint s o) (List.cons_ne_nil o2 r2)

theorem appendObservations_iterations : ∀ (new : List Obs) (s : LoopState),
    (appendObservations s new).iterations_done = s.iterations_done := by
  intro new
  induction new with
  | nil => intro s; rfl
  | cons o rest ih => intro s; exact ih (pushPoint s o)

theorem appendObservations_length : ∀ (new : List Obs) (s : LoopState),
    (appendObservations s new).obs.length = s.obs.length + new.length := by
  intro new
  induction new with
  | nil => intro s; rfl
  | cons o rest ih =>
    intro s
    have h := ih (pushPoint s o)
    simp only [appendObservations, List.foldl] at h ⊢
    rw [h]
    simp [pushPoint]
    omega

/-- Modelled from the spec: the numeric policy of the Expected Improvement
acquisition — when the predicted standard deviation is numerically zero the
score is the degenerate limit value 0, computed via the guard rather than by
direct division.  The standard normal CDF and pdf are supplied as the external
collaborator functions `Phi` and `phi`. -/
def acqu_EI (Phi phi : ℚ → ℚ) (ybest mu sigma psi : ℚ) : ℚ :=
  if sigma = 0 then 0
  else
    let gamma := (ybest - mu - psi) / sigma
    sigma * (gamma * Phi gamma + phi gamma)

/-- Modelled from the spec: the numeric policy of the Probability of
Improvement acquisition (MPI) — the same zero-standard-deviation guard,
returning the degenerate limit value 0. -/
def acqu_MPI (Phi : ℚ → ℚ) (ybest mu sigma psi : ℚ) : ℚ :=
  if sigma = 0 then 0 else Phi ((ybest - mu - psi) / sigma)

/-- Modelled from the spec: a linear congruential step, the explicit
pseudo-random generator threaded through candidate sampling in place of a
process-wide singleton. -/
def lcg (s : Nat) : Nat := (s * 1103515245 + 12345) % 2147483648

/-- Modelled from the spec: a deterministic sample in [0, 1) derived from the
generator state. -/
def unitSample (s : Nat) : ℚ := ((s % 1000 : Nat) : ℚ) / 1000

/-- Modelled from the spec: sampling one coordinate of a starting point,
honoring the variable type — inside the bounds for a continuous variable, from
the value set for a discrete or categorical one. -/
def sampleVar (s : Nat) : VarSpec → ℚ
  | VarSpec.continuous low high => low + unitSample s * (high - low)
  | VarSpec.discrete values => values.getD (s % values.length) 0
  | VarSpec.categorical values => values.getD (s % values.length) 0

/-- Modelled from the spec: sampling a full D-vector, threading the generator
state across the coordinates. -/
def samplePoint (s : Nat) : List VarSpec → List ℚ
  | [] => []
  | v :: vs => sampleVar s v :: samplePoint (lcg s) vs

/-- Modelled from the spec: the multi-start candidate pool of the acquisition
optimizer — `n` deterministic starting points inside the domain, derived from
the explicit seed. -/
def genCandidates (s : Nat) (d : List VarSpec) : Nat → List (List ℚ)
  | 0 => []
  | Nat.succ n => samplePoint s d :: genCandidates (lcg (s + 1)) d n

/-- Modelled from the spec: the running fold keeping the better-scoring of two
candidate points. -/
def pickBetter (score : List ℚ → ℚ) (b c : List ℚ) : List ℚ :=
  if score b < score c then c else b

/-- Modelled from the spec: the acquisition optimizer's final choice — the
best-scoring point of a candidate list, `none` when the list is empty. -/
def argmaxBy (score : List ℚ → ℚ) : List (List ℚ) → Option (List ℚ)
  | [] => none
  | c :: cs => some (cs.foldl (pickBetter score) c)

theorem foldl_pickBetter_mem (score : List ℚ → ℚ) :
    ∀ (cs : List (List ℚ)) (c : List ℚ), cs.foldl (pickBetter score) c ∈ c :: cs := by
  intro cs
  induction cs with
  | nil => intro c; simp
  | cons d cs ih =>
    intro c
    have hstep : (d :: cs).foldl (pickBetter score) c = cs.foldl (pickBetter score) (pickBetter score c d) := rfl
    rw [hstep]
    by_cases hb : score c < score d
    · have : pickBetter score c d = d := by simp [pickBetter, hb]
      rw [this]
      exact List.mem_cons_of_mem _ (ih d)
    · have : pickBetter score c d = c := by simp [pickBetter, hb]
      rw [this]
      rcases List.mem_cons.mp (ih c) with h1 | h1
      · simp [h1]
      · exact List.mem_cons_of_mem _ (List.mem_cons_of_mem _ h1)

theorem argmaxBy_mem (score : List ℚ → ℚ) (l : List (List ℚ)) (x : List ℚ)
    (h : argmaxBy score l = some x) : x ∈ l := by
  cases l with
  | nil => exact absurd h (by simp [argmaxBy])
  | cons c cs =>
    have hx : x = cs.foldl (pickBetter score) c := by
      simpa [argmaxBy] using h.symm
    rw [hx]
    exact foldl_pickBetter_mem score cs c

/-- Modelled from the spec: one step of the greedy local-penalization batch
selection — maximize the acquisition over the pool after hard-suppressing
(score driven to zero within radius `r` of) every already-selected or pending
center; when the penalized pool is empty the degenerate fallback returns a
feasible pool point so that the round never stalls. -/
def selectStep (score : List ℚ → ℚ) (pool : List (List ℚ)) (r : ℚ)
    (centers : List (List ℚ)) : Option (List ℚ) :=
  match argmaxBy score (pool.filter (fun c => !nearAny r c centers)) with
  | some x => some x
  | none => pool.head?

theorem selectStep_mem (score : List ℚ → ℚ) (pool : List (List ℚ)) (r : ℚ)
    (centers : List (List ℚ)) (x : List ℚ)
    (h : selectStep score pool r centers = some x) : x ∈ pool := by
  unfold selectStep at h
  cases hm : argmaxBy score (pool.filter (fun c => !nearAny r c centers)) with
  | some z =>
    rw [hm] at h
    have hz : z ∈ pool.filter (fun c => !nearAny r c centers) := argmaxBy_mem _ _ _ hm
    have : z = x := by simpa using h
    subst this
    exact List.mem_of_mem_filter hz
  | none =>
    rw [hm] at h
    exact List.mem_of_mem_head? h

/-- Modelled from the spec: the greedy accumulation of a batch of `k` points;
each step penalizes the neighborhoods of the points selected so far together
with the externally supplied pending/ignored centers, and the accumulated
batch is returned in selection order. -/
def selectBatchAux (score : List ℚ → ℚ) (pool : List (List ℚ)) (r : ℚ)
    (pendIgn : List (List ℚ)) : Nat → List (List ℚ) → List (List ℚ)
  | 0, acc => acc.reverse
  | Nat.succ k, acc =>
    match selectStep score pool r (acc ++ pendIgn) with
    | some x => selectBatchAux score pool r pendIgn k (x :: acc)
    | none => acc.reverse

/-- Modelled from the spec: the non-degeneracy condition of a batch-selection
round — at every greedy step the penalized pool still contains a candidate, so
the degenerate random fallback is never taken. -/
def batchOk (score : List ℚ → ℚ) (pool : List (List ℚ)) (r : ℚ)
    (pendIgn : List (List ℚ)) : Nat → List (List ℚ) → Bool
  | 0, _ => true
  | Nat.succ k, acc =>
    match argmaxBy score (pool.filter (fun c => !nearAny r c (acc ++ pendIgn))) with
    | some x => batchOk score pool r pendIgn k (x :: acc)
    | none => false

/-- Modelled from the spec: the optimizer object built by
`BayesianOptimization` — the immutable domain, the fixed observation context,
the de-duplication flag and tolerance, the penalization radius, the batch
size, the multi-start candidate count, the explicit random seed, the surrogate
model's posterior mean/standard-deviation contract, and the normal CDF/pdf
collaborators of the acquisition. -/
structure Optimizer where
  domain : List VarSpec
  obs : List Obs
  de_duplication : Bool
  tol : ℚ
  r : ℚ
  psi : ℚ
  batch_size : Nat
  ncand : Nat
  seed : Nat
  mu : List Obs → List ℚ → ℚ
  sigma : List Obs → List ℚ → ℚ
  Phi : ℚ → ℚ
  phi : ℚ → ℚ

/-- Modelled from the spec: the incumbent's y value used by improvement-based
acquisitions (0 on an empty history, which the constructor rules out). -/
def incumbentY (obs : List Obs) : ℚ :=
  match incumbent obs with
  | some i => i.y
  | none => 0

/-- Modelled from the spec: the acquisition score of a candidate point — the
Expected Improvement of the surrogate posterior at the point against the
incumbent, with the exploration parameter ψ. -/
def acquisitionScore (o : Optimizer) (x : List ℚ) : ℚ :=
  acqu_EI o.Phi o.phi (incumbentY o.obs) (o.mu o.obs x) (o.sigma o.obs x) o.psi

/-- Modelled from the spec: the exclusion centers of a suggestion round — the
observation history together with the supplied pending and ignored points,
active only when de-duplication is enabled. -/
def exclusionSet (o : Optimizer) (pending ignored : List (List ℚ)) : List (List ℚ) :=
  if o.de_duplication then o.obs.map Obs.x ++ (pending ++ ignored) else []

/-- Modelled from the spec: the penalization centers of a suggestion round —
the supplied pending and ignored points (treated identically), active only
when de-duplication is enabled. -/
def penalCenters (o : Optimizer) (pending ignored : List (List ℚ)) : List (List ℚ) :=
  if o.de_duplication then pending ++ ignored else []

/-- Modelled from the spec: `suggest_next_locations` — treat the current
observation set as fixed context, generate the multi-start candidate pool from
the explicit seed, reject every candidate within tolerance of an observation,
pending or ignored point (when de-duplication is enabled), and greedily select
a batch under local penalization; the observation set is not touched. -/
def suggest_next_locations (o : Optimizer) (pending ignored : List (List ℚ)) :
    List (List ℚ) :=
  selectBatchAux (acquisitionScore o)
    ((genCandidates o.seed o.domain o.ncand).filter
      (fun c => !nearAny o.tol c (exclusionSet o pending ignored)))
    o.r (penalCenters o pending ignored) o.batch_size []

/-- Modelled from the spec: the open-loop suggestion step as a state
transformer — it returns the candidate points together with the optimizer
state it leaves behind. -/
def suggestStep (o : Optimizer) (pending ignored : List (List ℚ)) :
    List (List ℚ) × Optimizer :=
  (suggest_next_locations o pending ignored, o)

/-- Modelled from the spec: the explicit update call by which the caller feeds
externally evaluated results back into the observation history. -/
def updateObs (o : Optimizer) (new : List Obs) : Optimizer :=
  { o with obs := o.obs ++ new }

/-- Modelled from the spec: the stopping configuration of `run_optimization` —
the iteration budget, the optional wall-clock budget in seconds and the
optional minimum distance between consecutive accepted points. -/
structure RunCfg where
  max_iter : Nat
  max_time : Option ℚ
  eps : Option ℚ
deriving DecidableEq

/-- Modelled from the spec: the squared distance between the last two accepted
points, when two points have been accepted. -/
def lastTwoDist (s : LoopState) : Option ℚ :=
  match s.last_x, s.prev_x with
  | some a, some b => some (sqDist a b)
  | _, _ => none

/-- Modelled from the spec: the termination test evaluated at iteration
boundaries — iterations exhausted, or wall-clock budget spent (the clock is an
oracle from completed-iteration count to elapsed seconds), or the last two
accepted points within the convergence distance (squared comparison). -/
def shouldStop (cfg : RunCfg) (clock : Nat → ℚ) (s : LoopState) : Bool :=
  decide (cfg.max_iter ≤ s.iterations_done) ||
  (match cfg.max_time with
   | some T => decide (T ≤ clock s.iterations_done)
   | none => false) ||
  (match cfg.eps, lastTwoDist s with
   | some e, some d => decide (d ≤ e * e)
   | _, _ => false)

/-- Modelled from the spec: one closed-loop iteration — obtain the batch from
the selector, evaluate the objective at each point, append the results to the
observation history (recomputing the incumbent), and count the iteration. -/
def stepLoop (selectFn : LoopState → List (List ℚ)) (f : List ℚ → ℚ)
    (s : LoopState) : LoopState :=
  let xs := selectFn s
  let s2 := appendObservations s (xs.map (fun x => Obs.mk x (f x)))
  { s2 with iterations_done := s2.iterations_done + 1 }

/-- Modelled from the spec: the fuel-indexed driver loop, checking the
termination test before every iteration (hence after each completed one). -/
def runAux (cfg : RunCfg) (clock : Nat → ℚ) (selectFn : LoopState → List (List ℚ))
    (f : List ℚ → ℚ) : Nat → LoopState → LoopState
  | 0, s => s
  | Nat.succ fuel, s =>
    if shouldStop cfg clock s then s
    else runAux cfg clock selectFn f fuel (stepLoop selectFn f s)

/-- Modelled from the spec: `run_optimization` — run the driver loop from the
given state; `max_iter` iterations suffice as fuel because the iteration
counter alone eventually fires the termination test. -/
def run_optimization (cfg : RunCfg) (clock : Nat → ℚ)
    (selectFn : LoopState → List (List ℚ)) (f : List ℚ → ℚ)
    (s0 : LoopState) : LoopState :=
  runAux cfg clock selectFn f cfg.max_iter s0

/-- Modelled from the spec: the error taxonomy raised at construction/call
time. -/
inductive BOError where
  | ConfigurationError
  | DataError
deriving DecidableEq

/-- Modelled from the spec: validity of a single variable specification —
ordered bounds for a continuous variable, a nonempty value set for a discrete
or categorical one. -/
def validVar : VarSpec → Bool
  | VarSpec.continuous low high => decide (low ≤ high)
  | VarSpec.discrete values => !values.isEmpty
  | VarSpec.categorical values => !values.isEmpty

/-- Modelled from the spec: a well-formed domain is nonempty with every
variable specification valid. -/
def validDomain (d : List VarSpec) : Bool :=
  !d.isEmpty && d.all validVar

/-- Modelled from the spec: consistency of the initial history with the domain
dimensionality and of X with Y — every row of X is a D-vector and X and Y have
the same number of rows. -/
def shapesOk (d : List VarSpec) (X : List (List ℚ)) (Y : List ℚ) : Bool :=
  X.all (fun row => decide (row.length = d.length)) && decide (X.length = Y.length)

/-- Modelled from the spec: the data held by a constructed
`BayesianOptimization` instance — the validated domain, the optional objective
(absent in open-loop mode) and the initial observation history. -/
structure BOInstance where
  domain : List VarSpec
  fObj : Option (List ℚ → ℚ)
  obs : List Obs

/-- Modelled from the spec: the `BayesianOptimization` constructor — it fails
immediately with `ConfigurationError` on an empty or malformed domain, with
`ConfigurationError` when `f` is absent and X and Y are not both supplied, and
with `DataError` when supplied X/Y shapes are inconsistent with the domain
dimensionality or with each other. -/
def buildBO (d : List VarSpec) (f : Option (List ℚ → ℚ))
    (X : Option (List (List ℚ))) (Y : Option (List ℚ)) :
    Except BOError BOInstance :=
  if !validDomain d then Except.error BOError.ConfigurationError
  else
    match f, X, Y with
    | none, some Xs, some Ys =>
      if shapesOk d Xs Ys then
        Except.ok ⟨d, none, List.zipWith Obs.mk Xs Ys⟩
      else Except.error BOError.DataError
    | none, _, _ => Except.error BOError.ConfigurationError
    | some fobj, some Xs, some Ys =>
      if shapesOk d Xs Ys then
        Except.ok ⟨d, some fobj, List.zipWith Obs.mk Xs Ys⟩
      else Except.error BOError.DataError
    | some fobj, _, _ => Except.ok ⟨d, some fobj, []⟩

theorem foldl_add_shift : ∀ (l : List ℚ) (a : ℚ),
    l.foldl (fun s t => s + t) a = a + l.foldl (fun s t => s + t) 0 := by
  intro l
  induction l with
  | nil => intro a; simp
  | cons x xs ih =>
    intro a
    simp only [List.foldl_cons]
    rw [ih (a + x), ih (0 + x)]
    ring

theorem sqDist_comm : ∀ (a b : List ℚ), sqDist a b = sqDist b a := by
  have hz : ∀ a b : List ℚ,
      List.zipWith (fun u v => (u - v) * (u - v)) a b =
      List.zipWith (fun u v => (u - v) * (u - v)) b a := by
    intro a
    induction a with
    | nil => intro b; cases b <;> rfl
    | cons x xs ih =>
      intro b
      cases b with
      | nil => rfl
      | cons y ys =>
        show (x - y) * (x - y) :: List.zipWith _ xs ys
            = (y - x) * (y - x) :: List.zipWith _ ys xs
        rw [ih ys]
        congr 1
        ring
  intro a b
  unfold sqDist
  rw [hz]

theorem sqDist_self : ∀ a : List ℚ, sqDist a a = 0 := by
  intro a
  induction a with
  | nil => rfl
  | cons x xs ih =>
    show (List.zipWith (fun u v => (u - v) * (u - v)) (x :: xs) (x :: xs)).foldl
        (fun s t => s + t) 0 = 0
    simp only [List.zipWith_cons_cons, List.foldl_cons]
    rw [foldl_add_shift]
    have h1 : (0 : ℚ) + (x - x) * (x - x) = 0 := by ring
    rw [h1]
    simpa [sqDist] using ih

theorem nearAny_eq_false (tol : ℚ) (x : List ℚ) (S : List (List ℚ)) :
    nearAny tol x S = false ↔ ∀ s ∈ S, tol * tol < sqDist x s := by
  simp [nearAny, List.any_eq_false, not_le]

theorem selectBatchAux_zero (score : List ℚ → ℚ) (pool : List (List ℚ)) (r : ℚ)
    (pendIgn acc : List (List ℚ)) :
    selectBatchAux score pool r pendIgn 0 acc = acc.reverse := rfl

theorem selectBatchAux_succ (score : List ℚ → ℚ) (pool : List (List ℚ)) (r : ℚ)
    (pendIgn : List (List ℚ)) (k : Nat) (acc : List (List ℚ)) :
    selectBatchAux score pool r pendIgn (Nat.succ k) acc =
      match selectStep score pool r (acc ++ pendIgn) with
      | some x => selectBatchAux score pool r pendIgn k (x :: acc)
      | none => acc.reverse := rfl

theorem batchOk_succ (score : List ℚ → ℚ) (pool : List (List ℚ)) (r : ℚ)
    (pendIgn : List (List ℚ)) (k : Nat) (acc : List (List ℚ)) :
    batchOk score pool r pendIgn (Nat.succ k) acc =
      match argmaxBy score (pool.filter (fun c => !nearAny r c (acc ++ pendIgn))) with
      | some x => batchOk score pool r pendIgn k (x :: acc)
      | none => false := rfl

theorem selectBatchAux_mem (score : List ℚ → ℚ) (pool : List (List ℚ)) (r : ℚ)
    (pendIgn : List (List ℚ)) : ∀ (k : Nat) (acc : List (List ℚ)) (x : List ℚ),
    x ∈ selectBatchAux score pool r pendIgn k acc → x ∈ acc ∨ x ∈ pool := by
  intro k
  induction k with
  | zero =>
    intro acc x hx
    rw [selectBatchAux_zero] at hx
    exact Or.inl (List.mem_reverse.mp hx)
  | succ k ih =>
    intro acc x hx
    rw [selectBatchAux_succ] at hx
    cases hs : selectStep score pool r (acc ++ pendIgn) with
    | some z =>
      rw [hs] at hx
      rcases ih (z :: acc) x hx with h1 | h1
      · rcases List.mem_cons.mp h1 with h2 | h2
        · subst h2
          exact Or.inr (selectStep_mem score pool r (acc ++ pendIgn) x hs)
        · exact Or.inl h2
      · exact Or.inr h1
    | none =>
      rw [hs] at hx
      exact Or.inl (List.mem_reverse.mp hx)

theorem selectBatchAux_spec (score : List ℚ → ℚ) (pool : List (List ℚ)) (r : ℚ)
    (pendIgn : List (List ℚ)) : ∀ (k : Nat) (acc : List (List ℚ)),
    batchOk score pool r pendIgn k acc = true →
    List.Pairwise (fun a b => r * r < sqDist a b) acc →
    (∀ a ∈ acc, ∀ p ∈ pendIgn, r * r < sqDist a p) →
    (selectBatchAux score pool r pendIgn k acc).length = acc.length + k ∧
    List.Pairwise (fun a b => r * r < sqDist a b)
      (selectBatchAux score pool r pendIgn k acc) ∧
    (∀ a ∈ selectBatchAux score pool r pendIgn k acc, ∀ p ∈ pendIgn,
      r * r < sqDist a p) := by
  intro k
  induction k with
  | zero =>
    intro acc _ hpw hfar
    rw [selectBatchAux_zero]
    refine ⟨by simp, ?_, ?_⟩
    · rw [List.pairwise_reverse]
      exact hpw.imp (fun h => by rwa [sqDist_comm])
    · intro a ha
      exact hfar a (List.mem_reverse.mp ha)
  | succ k ih =>
    intro acc hok hpw hfar
    rw [batchOk_succ] at hok
    cases hm : argmaxBy score (pool.filter (fun c => !nearAny r c (acc ++ pendIgn))) with
    | none => rw [hm] at hok; exact absurd hok (by simp)
    | some x =>
      rw [hm] at hok
      have hsel : selectStep score pool r (acc ++ pendIgn) = some x := by
        unfold selectStep
        rw [hm]
      have hxf : x ∈ pool.filter (fun c => !nearAny r c (acc ++ pendIgn)) :=
        argmaxBy_mem _ _ _ hm
      have hxfar : ∀ s ∈ acc ++ pendIgn, r * r < sqDist x s := by
        have h2 := (List.mem_filter.mp hxf).2
        have h3 : nearAny r x (acc ++ pendIgn) = false := by
          cases hn : nearAny r x (acc ++ pendIgn)
          · rfl
          · rw [hn] at h2; exact absurd h2 (by simp)
        exact (nearAny_eq_false r x (acc ++ pendIgn)).mp h3
      have hpw2 : List.Pairwise (fun a b => r * r < sqDist a b) (x :: acc) :=
        List.pairwise_cons.mpr
          ⟨fun b hb => hxfar b (List.mem_append_left _ hb), hpw⟩
      have hfar2 : ∀ a ∈ x :: acc, ∀ p ∈ pendIgn, r * r < sqDist a p := by
        intro a ha p hp
        rcases List.mem_cons.mp ha with h1 | h1
        · subst h1
          exact hxfar p (List.mem_append_right _ hp)
        · exact hfar a h1 p hp
      have hres := ih (x :: acc) hok hpw2 hfar2
      rw [selectBatchAux_succ, hsel]
      refine ⟨?_, hres.2.1, hres.2.2⟩
      rw [hres.1]
      simp only [List.length_cons]
      omega

theorem bool_or_middle (a b c : Bool) : (a || (b || c)) = (a || (c || b)) := by
  cases b <;> cases c <;> simp

theorem nearAny_append_swap (t : ℚ) (c : List ℚ) (A p q : List (List ℚ)) :
    nearAny t c (A ++ (p ++ q)) = nearAny t c (A ++ (q ++ p)) := by
  unfold nearAny
  rw [List.any_append, List.any_append, List.any_append, List.any_append]
  exact bool_or_middle _ _ _

theorem selectBatchAux_pendIgn_congr (score : List ℚ → ℚ) (pool : List (List ℚ))
    (r : ℚ) (p q : List (List ℚ))
    (hpq : ∀ (c : List ℚ) (acc : List (List ℚ)),
      nearAny r c (acc ++ p) = nearAny r c (acc ++ q)) :
    ∀ (k : Nat) (acc : List (List ℚ)),
    selectBatchAux score pool r p k acc = selectBatchAux score pool r q k acc := by
  intro k
  induction k with
  | zero => intro acc; rfl
  | succ k ih =>
    intro acc
    rw [selectBatchAux_succ, selectBatchAux_succ]
    have hs : selectStep score pool r (acc ++ p) = selectStep score pool r (acc ++ q) := by
      unfold selectStep
      have hf : (fun c => !nearAny r c (acc ++ p)) = (fun c => !nearAny r c (acc ++ q)) := by
        funext c
        rw [hpq c acc]
      rw [hf]
    rw [hs]
    cases selectStep score pool r (acc ++ q) with
    | some x => exact ih (x :: acc)
    | none => rfl

theorem stepLoop_iterations (sel : LoopState → List (List ℚ)) (f : List ℚ → ℚ)
    (s : LoopState) : (stepLoop sel f s).iterations_done = s.iterations_done + 1 := by
  unfold stepLoop
  simp [appendObservations_iterations]

theorem stepLoop_length (sel : LoopState → List (List ℚ)) (f : List ℚ → ℚ)
    (s : LoopState) : (stepLoop sel f s).obs.length = s.obs.length + (sel s).length := by
  unfold stepLoop
  simp [appendObservations_length]

theorem iterate_iterations (sel : LoopState → List (List ℚ)) (f : List ℚ → ℚ) :
    ∀ (m : Nat) (s : LoopState),
    ((stepLoop sel f)^[m] s).iterations_done = s.iterations_done + m := by
  intro m
  induction m with
  | zero => intro s; simp
  | succ m ih =>
    intro s
    rw [Function.iterate_succ_apply]
    rw [ih (stepLoop sel f s), stepLoop_iterations]
    omega

theorem runAux_spec (cfg : RunCfg) (clock : Nat → ℚ)
    (sel : LoopState → List (List ℚ)) (f : List ℚ → ℚ) :
    ∀ (fuel : Nat) (s : LoopState), ∃ m : Nat, m ≤ fuel ∧
    runAux cfg clock sel f fuel s = (stepLoop sel f)^[m] s ∧
    (∀ j < m, shouldStop cfg clock ((stepLoop sel f)^[j] s) = false) ∧
    (shouldStop cfg clock ((stepLoop sel f)^[m] s) = true ∨ m = fuel) := by
  intro fuel
  induction fuel with
  | zero =>
    intro s
    exact ⟨0, le_refl 0, rfl, fun j hj => absurd hj (Nat.not_lt_zero j), Or.inr rfl⟩
  | succ fuel ih =>
    intro s
    by_cases h : shouldStop cfg clock s = true
    · refine ⟨0, Nat.zero_le _, ?_, fun j hj => absurd hj (Nat.not_lt_zero j), Or.inl ?_⟩
      · unfold runAux
        rw [if_pos h]
        simp
      · simpa using h
    · have hfalse : shouldStop cfg clock s = false := by
        cases hb : shouldStop cfg clock s
        · rfl
        · exact absurd hb h
      obtain ⟨m, hm, heq, hprev, hstop⟩ := ih (stepLoop sel f s)
      refine ⟨m + 1, Nat.succ_le_succ hm, ?_, ?_, ?_⟩
      · unfold runAux
        rw [if_neg h, heq, Function.iterate_succ_apply]
      · intro j hj
        cases j with
        | zero => simpa using hfalse
        | succ j =>
          rw [Function.iterate_succ_apply]
          exact hprev j (Nat.lt_of_succ_lt_succ hj)
      · rcases hstop with h1 | h1
        · left
          rw [Function.iterate_succ_apply]
          exact h1
        · right
          omega

theorem shouldStop_simple (n : Nat) (clock : Nat → ℚ) (s : LoopState) :
    shouldStop ⟨n, none, none⟩ clock s = decide (n ≤ s.iterations_done) := by
  simp [shouldStop]

theorem runAux_full (clock : Nat → ℚ) (sel : LoopState → List (List ℚ))
    (f : List ℚ → ℚ) (kb : Nat) (hsel : ∀ s, (sel s).length = kb) (n : Nat) :
    ∀ (fuel : Nat) (s : LoopState), s.iterations_done + fuel ≤ n →
    (runAux ⟨n, none, none⟩ clock sel f fuel s).obs.length
      = s.obs.length + kb * fuel := by
  intro fuel
  induction fuel with
  | zero => intro s _; simp [runAux]
  | succ fuel ih =>
    intro s hle
    have hns : shouldStop ⟨n, none, none⟩ clock s = false := by
      rw [shouldStop_simple]
      simp only [decide_eq_false_iff_not]
      omega
    unfold runAux
    rw [hns]
    simp only [Bool.false_eq_true, if_false]
    have hle2 : (stepLoop sel f s).iterations_done + fuel ≤ n := by
      rw [stepLoop_iterations]
      omega
    rw [ih (stepLoop sel f s) hle2, stepLoop_length, hsel]
    ring

/-- Claim C1: for every observation set with at least one point, the incumbent
is a pair of the observation set whose y value is the minimum y across all
observations, and it is recomputed from the history after every append to the
observation set. -/
theorem claim_C1 (o : Obs) (os : List Obs) :
    (∃ inc : Obs, incumbent (o :: os) = some inc ∧ inc ∈ o :: os ∧
      ∀ c ∈ o :: os, inc.y ≤ c.y) ∧
    (∀ (s : LoopState) (ob : Obs),
      (pushPoint s ob).inc = incumbent (pushPoint s ob).obs) ∧
    (∀ (s : LoopState) (new : List Obs), new ≠ [] →
      (appendObservations s new).inc = incumbent (appendObservations s new).obs) := by
  refine ⟨incumbent_mem_and_min o os, pushPoint_inc, ?_⟩
  intro s new h
  exact appendObservations_inc new s h

/-- Witness for claim C1 at a concrete two-point observation set and a
concrete append. -/
theorem claim_C1_witness :
    (∃ inc : Obs, incumbent [Obs.mk [0] 2, Obs.mk [1] 1] = some inc ∧
      inc ∈ [Obs.mk [0] 2, Obs.mk [1] 1] ∧
      ∀ c ∈ [Obs.mk [0] 2, Obs.mk [1] 1], inc.y ≤ c.y) ∧
    (appendObservations ⟨[], none, 0, none, none⟩ [Obs.mk [2] 5]).inc
      = incumbent (appendObservations ⟨[], none, 0, none, none⟩ [Obs.mk [2] 5]).obs := by
  have h := claim_C1 (Obs.mk [0] 2) [Obs.mk [1] 1]
  exact ⟨h.1, h.2.2 ⟨[], none, 0, none, none⟩ [Obs.mk [2] 5] (by simp)⟩

/-- Claim C2: with de-duplication enabled, `suggest_next_locations` returns
only points strictly farther than the configured tolerance (in squared
Euclidean distance) from every entry of the current observation set, of the
supplied pending set, and of the supplied ignored set. -/
theorem claim_C2 (o : Optimizer) (pending ignored : List (List ℚ)) (x : List ℚ)
    (hdedup : o.de_duplication = true)
    (hx : x ∈ suggest_next_locations o pending ignored) :
    (∀ ob ∈ o.obs, o.tol * o.tol < sqDist x ob.x) ∧
    (∀ p ∈ pending, o.tol * o.tol < sqDist x p) ∧
    (∀ q ∈ ignored, o.tol * o.tol < sqDist x q) := by
  unfold suggest_next_locations at hx
  have hpool := selectBatchAux_mem _ _ _ _ _ _ _ hx
  rcases hpool with h1 | h1
  · exact absurd h1 (List.not_mem_nil x)
  · have h2 := (List.mem_filter.mp h1).2
    have h3 : nearAny o.tol x (exclusionSet o pending ignored) = false := by
      cases hn : nearAny o.tol x (exclusionSet o pending ignored)
      · rfl
      · rw [hn] at h2; exact absurd h2 (by simp)
    have h4 := (nearAny_eq_false _ _ _).mp h3
    unfold exclusionSet at h4
    rw [hdedup] at h4
    simp only [if_true] at h4
    refine ⟨?_, ?_, ?_⟩
    · intro ob hob
      exact h4 ob.x (by simp [List.mem_append]; exact Or.inl ⟨ob, hob, rfl⟩)
    · intro p hp
      exact h4 p (by simp [List.mem_append]; exact Or.inr (Or.inl hp))
    · intro q hq
      exact h4 q (by simp [List.mem_append]; exact Or.inr (Or.inr hq))

/-- Witness for claim C2 at a concrete optimizer with de-duplication enabled,
one observation, one pending point and one ignored point. -/
theorem claim_C2_witness :
    (∀ ob ∈ [Obs.mk [(0 : ℚ)] 1], (1 : ℚ) * 1 < sqDist [5] ob.x) ∧
    (∀ p ∈ [[(9 : ℚ)]], (1 : ℚ) * 1 < sqDist [5] p) ∧
    (∀ q ∈ [[(3 : ℚ)]], (1 : ℚ) * 1 < sqDist [5] q) :=
  claim_C2
    { domain := [VarSpec.discrete [0, 5]], obs := [Obs.mk [0] 1],
      de_duplication := true, tol := 1, r := 1, psi := 0, batch_size := 1,
      ncand := 1, seed := 1, mu := fun _ _ => 0, sigma := fun _ _ => 1,
      Phi := fun t => t, phi := fun _ => 0 }
    [[9]] [[3]] [5] rfl (by
      have h0 : sqDist [(5 : ℚ)] [0] = 25 := by norm_num [sqDist]
      have h9 : sqDist [(5 : ℚ)] [9] = 16 := by norm_num [sqDist]
      have h3 : sqDist [(5 : ℚ)] [3] = 4 := by norm_num [sqDist]
      have hnear : nearAny 1 [5] ([[(0 : ℚ)]] ++ ([[9]] ++ [[3]])) = false := by
        simp [nearAny, h0, h9, h3]
      have hnear2 : nearAny 1 [5] ([] ++ ([[(9 : ℚ)]] ++ [[3]])) = false := by
        simp [nearAny, h9, h3]
      show _ ∈ suggest_next_locations _ _ _
      unfold suggest_next_locations
      have hexcl : exclusionSet
          { domain := [VarSpec.discrete [0, 5]], obs := [Obs.mk [0] 1],
            de_duplication := true, tol := 1, r := 1, psi := 0, batch_size := 1,
            ncand := 1, seed := 1, mu := fun _ _ => 0, sigma := fun _ _ => 1,
            Phi := fun t => t, phi := fun _ => 0 }
          [[9]] [[3]] = [[(0 : ℚ)]] ++ ([[9]] ++ [[3]]) := rfl
      rw [hexcl]
      have hcand : genCandidates 1 [VarSpec.discrete [0, 5]] 1 = [[5]] := rfl
      rw [hcand]
      rw [List.filter_cons, hnear]
      simp only [Bool.not_false, if_true, List.filter_nil]
      have hpen : penalCenters
          { domain := [VarSpec.discrete [0, 5]], obs := [Obs.mk [0] 1],
            de_duplication := true, tol := 1, r := 1, psi := 0, batch_size := 1,
            ncand := 1, seed := 1, mu := fun _ _ => 0, sigma := fun _ _ => 1,
            Phi := fun t => t, phi := fun _ => 0 }
          [[9]] [[3]] = [[(9 : ℚ)]] ++ [[3]] := rfl
      rw [hpen]
      rw [show (1 : Nat) = Nat.succ 0 from rfl, selectBatchAux_succ]
      have hstep : selectStep
          (acquisitionScore
            { domain := [VarSpec.discrete [0, 5]], obs := [Obs.mk [0] 1],
              de_duplication := true, tol := 1, r := 1, psi := 0, batch_size := 1,
              ncand := 1, seed := 1, mu := fun _ _ => 0, sigma := fun _ _ => 1,
              Phi := fun t => t, phi := fun _ => 0 })
          [[5]] 1 ([] ++ ([[(9 : ℚ)]] ++ [[3]])) = some [5] := by
        unfold selectStep
        rw [List.filter_cons, hnear2]
        simp only [Bool.not_false, if_true, List.filter_nil]
        rfl
      rw [hstep]
      simp [selectBatchAux])

/-- Claim C3: `suggest_next_locations` is pure with respect to the internal
observation set — the optimizer state it leaves behind is unchanged (no
observation is appended), and history only grows through the explicit update
call by which the caller feeds results back. -/
theorem claim_C3 (o : Optimizer) (pending ignored : List (List ℚ)) (new : List Obs) :
    (suggestStep o pending ignored).2.obs = o.obs ∧
    (suggestStep o pending ignored).2 = o ∧
    (updateObs o new).obs = o.obs ++ new :=
  ⟨rfl, rfl, rfl⟩

/-- Claim C4: whenever the predicted standard deviation is zero, the Expected
Improvement acquisition score (as used by the optimizer) and the Probability
of Improvement score evaluate to exactly the degenerate limit value 0 — the
guard takes the limit branch, never the division branch. -/
theorem claim_C4 (o : Optimizer) (x : List ℚ) (Phi phi : ℚ → ℚ)
    (ybest mu psi : ℚ) (hsig : o.sigma o.obs x = 0) :
    acquisitionScore o x = 0 ∧ acqu_EI Phi phi ybest mu 0 psi = 0 ∧
    acqu_MPI Phi ybest mu 0 psi = 0 := by
  refine ⟨?_, by simp [acqu_EI], by simp [acqu_MPI]⟩
  unfold acquisitionScore acqu_EI
  rw [hsig]
  simp

/-- Witness for claim C4 at a concrete optimizer whose surrogate reports zero
standard deviation everywhere. -/
theorem claim_C4_witness :
    acquisitionScore
      { domain := [VarSpec.continuous 0 1], obs := [Obs.mk [0] 1],
        de_duplication := false, tol := 0, r := 0, psi := 0, batch_size := 1,
        ncand := 1, seed := 0, mu := fun _ _ => 0, sigma := fun _ _ => 0,
        Phi := fun t => t, phi := fun t => t } [0] = 0 ∧
    acqu_EI (fun t => t) (fun t => t) 1 2 0 3 = 0 ∧
    acqu_MPI (fun t => t) 1 2 0 3 = 0 :=
  claim_C4
    { domain := [VarSpec.continuous 0 1], obs := [Obs.mk [0] 1],
      de_duplication := false, tol := 0, r := 0, psi := 0, batch_size := 1,
      ncand := 1, seed := 0, mu := fun _ _ => 0, sigma := fun _ _ => 0,
      Phi := fun t => t, phi := fun t => t }
    [0] (fun t => t) (fun t => t) 1 2 3 rfl

/-- Claim C5: starting from a fresh iteration counter, `run_optimization`
terminates exactly at the first iteration boundary where the termination test
fires (iterations done at least `max_iter`, or elapsed wall-clock at least
`max_time` when given, or the last two accepted points within the convergence
distance when given); with `max_iter = 0` the state — hence the observation
set — is untouched. -/
theorem claim_C5 (cfg : RunCfg) (clock : Nat → ℚ)
    (sel : LoopState → List (List ℚ)) (f : List ℚ → ℚ) (s0 : LoopState)
    (h0 : s0.iterations_done = 0) :
    (cfg.max_iter = 0 → run_optimization cfg clock sel f s0 = s0) ∧
    ∃ m : Nat, run_optimization cfg clock sel f s0 = (stepLoop sel f)^[m] s0 ∧
      shouldStop cfg clock ((stepLoop sel f)^[m] s0) = true ∧
      ∀ j < m, shouldStop cfg clock ((stepLoop sel f)^[j] s0) = false := by
  constructor
  · intro hz
    unfold run_optimization
    rw [hz]
    rfl
  · obtain ⟨m, hm, heq, hprev, hstop⟩ := runAux_spec cfg clock sel f cfg.max_iter s0
    refine ⟨m, heq, ?_, hprev⟩
    rcases hstop with h | h
    · exact h
    · subst h
      have hiter : ((stepLoop sel f)^[cfg.max_iter] s0).iterations_done = cfg.max_iter := by
        rw [iterate_iterations, h0]
        omega
      unfold shouldStop
      rw [hiter]
      simp

/-- Witness for claim C5 at a concrete one-iteration configuration. -/
theorem claim_C5_witness :
    ((1 : Nat) = 0 →
      run_optimization ⟨1, none, none⟩ (fun _ => 0) (fun _ => [[0]]) (fun _ => 0)
        ⟨[], none, 0, none, none⟩ = ⟨[], none, 0, none, none⟩) ∧
    ∃ m : Nat,
      run_optimization ⟨1, none, none⟩ (fun _ => 0) (fun _ => [[0]]) (fun _ => 0)
          ⟨[], none, 0, none, none⟩
        = (stepLoop (fun _ => [[0]]) (fun _ => 0))^[m] ⟨[], none, 0, none, none⟩ ∧
      shouldStop ⟨1, none, none⟩ (fun _ => 0)
          ((stepLoop (fun _ => [[0]]) (fun _ => 0))^[m] ⟨[], none, 0, none, none⟩) = true ∧
      ∀ j < m, shouldStop ⟨1, none, none⟩ (fun _ => 0)
          ((stepLoop (fun _ => [[0]]) (fun _ => 0))^[j] ⟨[], none, 0, none, none⟩) = false :=
  claim_C5 ⟨1, none, none⟩ (fun _ => 0) (fun _ => [[0]]) (fun _ => 0)
    ⟨[], none, 0, none, none⟩ rfl

/-- Claim C6: a non-degenerate batch-selection round of size k returns exactly
k points, pairwise strictly farther apart than the penalization radius (hence
pairwise distinct) and clear of the pending/ignored centers; and a
closed-loop run of 10 iterations with batch size 4 (no time or convergence
budget) appends exactly 40 observations beyond the initial design. -/
theorem claim_C6 :
    (∀ (score : List ℚ → ℚ) (pool : List (List ℚ)) (r : ℚ)
        (pendIgn : List (List ℚ)) (k : Nat),
      batchOk score pool r pendIgn k [] = true →
      (selectBatchAux score pool r pendIgn k []).length = k ∧
      List.Pairwise (fun a b => r * r < sqDist a b)
        (selectBatchAux score pool r pendIgn k []) ∧
      List.Pairwise (fun a b => a ≠ b) (selectBatchAux score pool r pendIgn k []) ∧
      (∀ a ∈ selectBatchAux score pool r pendIgn k [], ∀ p ∈ pendIgn,
        r * r < sqDist a p)) ∧
    (∀ (clock : Nat → ℚ) (sel : LoopState → List (List ℚ)) (f : List ℚ → ℚ)
        (s0 : LoopState), s0.iterations_done = 0 → (∀ s, (sel s).length = 4) →
      (run_optimization ⟨10, none, none⟩ clock sel f s0).obs.length
        = s0.obs.length + 40) := by
  constructor
  · intro score pool r pendIgn k hok
    have h := selectBatchAux_spec score pool r pendIgn k [] hok
      (List.Pairwise.nil) (by intro a ha; exact absurd ha (List.not_mem_nil a))
    refine ⟨by simpa using h.1, h.2.1, ?_, h.2.2⟩
    refine h.2.1.imp ?_
    intro a b hab heq
    subst heq
    rw [sqDist_self] at hab
    exact absurd hab (not_lt_of_le (mul_self_nonneg r))
  · intro clock sel f s0 h0 hsel
    have h := runAux_full clock sel f 4 hsel 10 10 s0 (by omega)
    show (runAux ⟨10, none, none⟩ clock sel f 10 s0).obs.length = s0.obs.length + 40
    rw [h]

/-- Witness for claim C6: a concrete two-point batch round and a concrete
40-evaluation closed-loop run. -/
theorem claim_C6_witness :
    ((selectBatchAux (fun _ => 0) [[0], [10]] 1 [] 2 []).length = 2 ∧
      List.Pairwise (fun a b => (1 : ℚ) * 1 < sqDist a b)
        (selectBatchAux (fun _ => 0) [[0], [10]] 1 [] 2 []) ∧
      List.Pairwise (fun a b => a ≠ b)
        (selectBatchAux (fun _ => 0) [[0], [10]] 1 [] 2 []) ∧
      (∀ a ∈ selectBatchAux (fun _ => (0 : ℚ)) [[0], [10]] 1 [] 2 [],
        ∀ p ∈ ([] : List (List ℚ)), (1 : ℚ) * 1 < sqDist a p)) ∧
    (run_optimization ⟨10, none, none⟩ (fun _ => 0)
        (fun _ => [[0], [1], [2], [3]]) (fun _ => 0)
        ⟨[], none, 0, none, none⟩).obs.length = 0 + 40 := by
  constructor
  · refine claim_C6.1 (fun _ => 0) [[0], [10]] 1 [] 2 ?_
    have h100 : sqDist [(10 : ℚ)] [0] = 100 := by norm_num [sqDist]
    have ha : nearAny 1 [(0 : ℚ)] [[(0 : ℚ)]] = true := by
      norm_num [nearAny, sqDist_self]
    have hb : nearAny 1 [(10 : ℚ)] [[(0 : ℚ)]] = false := by
      norm_num [nearAny, h100]
    rw [show (2 : Nat) = Nat.succ (Nat.succ 0) from rfl, batchOk_succ]
    have hfilter1 : List.filter (fun c => !nearAny 1 c ([] ++ [])) [[(0 : ℚ)], [10]]
        = [[0], [10]] := by
      simp [nearAny]
    rw [hfilter1]
    have harg1 : argmaxBy (fun _ => (0 : ℚ)) [[(0 : ℚ)], [10]] = some [0] := rfl
    rw [harg1]
    show batchOk (fun _ => 0) [[0], [10]] 1 [] (Nat.succ 0) [[0]] = true
    rw [batchOk_succ]
    have hfilter2 : List.filter (fun c => !nearAny 1 c ([[(0 : ℚ)]] ++ []))
        [[(0 : ℚ)], [10]] = [[10]] := by
      simp [List.filter_cons, ha, hb]
    rw [hfilter2]
    have harg2 : argmaxBy (fun _ => (0 : ℚ)) [[(10 : ℚ)]] = some [10] := rfl
    rw [harg2]
    rfl
  · exact claim_C6.2 (fun _ => 0) (fun _ => [[0], [1], [2], [3]]) (fun _ => 0)
      ⟨[], none, 0, none, none⟩ rfl (fun _ => rfl)

/-- Claim C7: construction fails immediately with `ConfigurationError` when
the domain is empty or malformed, with `ConfigurationError` when the objective
is absent and X and Y are not both supplied, and with `DataError` when the
supplied X/Y shapes are inconsistent with the domain dimensionality or with
each other. -/
theorem claim_C7 (d : List VarSpec) (f : Option (List ℚ → ℚ))
    (X : Option (List (List ℚ))) (Y : Option (List ℚ))
    (Xs : List (List ℚ)) (Ys : List ℚ) :
    (validDomain d = false →
      buildBO d f X Y = Except.error BOError.ConfigurationError) ∧
    (validDomain d = true → (X = none ∨ Y = none) →
      buildBO d none X Y = Except.error BOError.ConfigurationError) ∧
    (validDomain d = true → shapesOk d Xs Ys = false →
      buildBO d f (some Xs) (some Ys) = Except.error BOError.DataError) := by
  refine ⟨?_, ?_, ?_⟩
  · intro h
    unfold buildBO
    rw [h]
    rfl
  · intro h hXY
    unfold buildBO
    rw [h]
    rcases hXY with hX | hY
    · subst hX
      rfl
    · subst hY
      cases X with
      | none => rfl
      | some Xs2 => rfl
  · intro h hsh
    unfold buildBO
    rw [h]
    cases f with
    | none =>
      simp only [Bool.not_true, Bool.false_eq_true, if_false]
      rw [hsh]
      rfl
    | some fobj =>
      simp only [Bool.not_true, Bool.false_eq_true, if_false]
      rw [hsh]
      rfl

/-- Witness for claim C7 at an empty domain, a missing objective with missing
history, and a dimensionality mismatch. -/
theorem claim_C7_witness :
    buildBO [] none none none = Except.error BOError.ConfigurationError ∧
    buildBO [VarSpec.continuous 0 1] none none none
      = Except.error BOError.ConfigurationError ∧
    buildBO [VarSpec.continuous 0 1] none (some [[0, 0]]) (some [1])
      = Except.error BOError.DataError :=
  ⟨(claim_C7 [] none none none [] []).1 (by decide),
   (claim_C7 [VarSpec.continuous 0 1] none none none [] []).2.1 (by decide)
     (Or.inl rfl),
   (claim_C7 [VarSpec.continuous 0 1] none none none [[0, 0]] [1]).2.2
     (by decide) (by decide)⟩

/-- Claim C8: in open-loop mode with the explicit random seed, two suggestion
calls from optimizers agreeing on the observation set, the seed and every
configuration field (and no pending/ignored points) return the identical
point — there is no hidden state and the model is deterministic. -/
theorem claim_C8 (o1 o2 : Optimizer)
    (hdom : o1.domain = o2.domain) (hobs : o1.obs = o2.obs)
    (hded : o1.de_duplication = o2.de_duplication) (htol : o1.tol = o2.tol)
    (hrad : o1.r = o2.r) (hpsi : o1.psi = o2.psi)
    (hbs : o1.batch_size = o2.batch_size) (hnc : o1.ncand = o2.ncand)
    (hseed : o1.seed = o2.seed) (hmu : o1.mu = o2.mu) (hsg : o1.sigma = o2.sigma)
    (hPhi : o1.Phi = o2.Phi) (hphi : o1.phi = o2.phi) :
    suggest_next_locations o1 [] [] = suggest_next_locations o2 [] [] := by
  cases o1
  cases o2
  dsimp only at hdom hobs hded htol hrad hpsi hbs hnc hseed hmu hsg hPhi hphi
  subst_vars
  rfl

/-- Witness for claim C8 at two identical concrete optimizers. -/
theorem claim_C8_witness :
    suggest_next_locations
      { domain := [VarSpec.discrete [0]], obs := [], de_duplication := false,
        tol := 0, r := 0, psi := 0, batch_size := 1, ncand := 1, seed := 0,
        mu := fun _ _ => 0, sigma := fun _ _ => 1, Phi := fun t => t,
        phi := fun _ => 0 } [] []
      = suggest_next_locations
      { domain := [VarSpec.discrete [0]], obs := [], de_duplication := false,
        tol := 0, r := 0, psi := 0, batch_size := 1, ncand := 1, seed := 0,
        mu := fun _ _ => 0, sigma := fun _ _ => 1, Phi := fun t => t,
        phi := fun _ => 0 } [] [] :=
  claim_C8
    { domain := [VarSpec.discrete [0]], obs := [], de_duplication := false,
      tol := 0, r := 0, psi := 0, batch_size := 1, ncand := 1, seed := 0,
      mu := fun _ _ => 0, sigma := fun _ _ => 1, Phi := fun t => t,
      phi := fun _ => 0 }
    { domain := [VarSpec.discrete [0]], obs := [], de_duplication := false,
      tol := 0, r := 0, psi := 0, batch_size := 1, ncand := 1, seed := 0,
      mu := fun _ _ => 0, sigma := fun _ _ => 1, Phi := fun t => t,
      phi := fun _ => 0 }
    rfl rfl rfl rfl rfl rfl rfl rfl rfl rfl rfl rfl rfl

/-- Claim C9: pending and ignored points are treated identically for candidate
exclusion and penalization — swapping the two sets leaves the returned
suggestions unchanged. -/
theorem claim_C9 (o : Optimizer) (pending ignored : List (List ℚ)) :
    suggest_next_locations o pending ignored
      = suggest_next_locations o ignored pending := by
  unfold suggest_next_locations
  have hexcl : ∀ c : List ℚ, nearAny o.tol c (exclusionSet o pending ignored)
      = nearAny o.tol c (exclusionSet o ignored pending) := by
    intro c
    unfold exclusionSet
    by_cases hd : o.de_duplication = true
    · rw [if_pos hd, if_pos hd]
      exact nearAny_append_swap o.tol c (o.obs.map Obs.x) pending ignored
    · rw [if_neg hd, if_neg hd]
  have hpred : (fun c => !nearAny o.tol c (exclusionSet o pending ignored))
      = (fun c => !nearAny o.tol c (exclusionSet o ignored pending)) := by
    funext c
    rw [hexcl c]
  rw [hpred]
  apply selectBatchAux_pendIgn_congr
  intro c acc
  unfold penalCenters
  by_cases hd : o.de_duplication = true
  · rw [if_pos hd, if_pos hd]
    exact nearAny_append_swap o.r c acc pending ignored
  · rw [if_neg hd, if_neg hd]

/-- Claim C10: with the de-duplication flag left at its default (false),
supplied pending and ignored points have no exclusion effect — the suggestion
is the same as with no pending/ignored points at all. -/
theorem claim_C10 (o : Optimizer) (pending ignored : List (List ℚ))
    (h : o.de_duplication = false) :
    suggest_next_locations o pending ignored = suggest_next_locations o [] [] := by
  unfold suggest_next_locations exclusionSet penalCenters
  rw [h]
  simp

/-- Witness for claim C10 at a concrete optimizer with de-duplication left
disabled and nonempty pending/ignored sets. -/
theorem claim_C10_witness :
    suggest_next_locations
      { domain := [VarSpec.discrete [0]], obs := [Obs.mk [0] 1],
        de_duplication := false, tol := 0, r := 0, psi := 0, batch_size := 1,
        ncand := 1, seed := 0, mu := fun _ _ => 0, sigma := fun _ _ => 1,
        Phi := fun t => t, phi := fun _ => 0 } [[1]] [[2]]
      = suggest_next_locations
      { domain := [VarSpec.discrete [0]], obs := [Obs.mk [0] 1],
        de_duplication := false, tol := 0, r := 0, psi := 0, batch_size := 1,
        ncand := 1, seed := 0, mu := fun _ _ => 0, sigma := fun _ _ => 1,
        Phi := fun t => t, phi := fun _ => 0 } [] [] :=
  claim_C10
    { domain := [VarSpec.discrete [0]], obs := [Obs.mk [0] 1],
      de_duplication := false, tol := 0, r := 0, psi := 0, batch_size := 1,
      ncand := 1, seed := 0, mu := fun _ _ => 0, sigma := fun _ _ => 1,
      Phi := fun t => t, phi := fun _ => 0 } [[1]] [[2]] rfl

end GPyOptSpec
